import Mathlib

/-!
# Verification of the tiny-rng core (`src/lib.rs`)

Shallow embedding of the `tiny_rng` crate: the `Rand` trait's derived
operations (bounded sampling by rejection, range sampling, `choice`,
`shuffle`, `fill`) and the concrete xorshift128+ engine `Rng`.

Machine integers are embedded as `Nat` (respectively `Int` for the signed
range samplers), with wraparound written explicitly as `% 2 ^ W`.  The
underlying bit generator is abstracted, as in the Rust trait, by a state
type `σ` together with a raw drawing function `σ → Nat × σ` (value drawn,
successor state).  The rejection-sampling loops of `rand_bounded_*` are
embedded with an explicit fuel parameter and return `none` when the fuel
is exhausted, i.e. when the loop is still running after `fuel` iterations.
-/

/-- Structurally recursive helper for `nextPowerOfTwo`: the first argument
is fuel (the value itself suffices), so that the function reduces inside
the kernel on concrete inputs. -/
def nextPowerOfTwoAux : Nat → Nat → Nat
  | 0, _ => 1
  | fuel + 1, m => if m ≤ 1 then 1 else 2 * nextPowerOfTwoAux fuel ((m + 1) / 2)

/-- Semantics of Rust's `u32::next_power_of_two` / `u64::next_power_of_two`
(width checking is done by the callers below, as in the source): the
smallest power of two that is greater than or equal to `n`, mapping `0`
to `1`.  `nextPowerOfTwo_eq_pow_clog` identifies it with `2 ^ clog 2 n`. -/
def nextPowerOfTwo (n : Nat) : Nat := nextPowerOfTwoAux n n

/-- Wrapping subtraction of `W`-bit unsigned integers,
`a.wrapping_sub(b)` for `a b : uW`. -/
def wrappingSub (W a b : Nat) : Nat := (a + 2 ^ W - b) % 2 ^ W

/-- `fn wrapping_next_power_of_two_u32 / _u64` from the source, width
generic: `if x <= H {x.next_power_of_two()} else {0}` with `H = 1 << (W-1)`. -/
def wrappingNextPowerOfTwo (W x : Nat) : Nat :=
  if x ≤ 2 ^ (W - 1) then nextPowerOfTwo x else 0

/-- `fn wrapping_next_power_of_two_u32`. -/
def wrappingNextPowerOfTwoU32 : Nat → Nat := wrappingNextPowerOfTwo 32

/-- `fn wrapping_next_power_of_two_u64`. -/
def wrappingNextPowerOfTwoU64 : Nat → Nat := wrappingNextPowerOfTwo 64

/-- The mask computed by `rand_bounded_u32` / `rand_bounded_u64`:
`wrapping_next_power_of_two(m).wrapping_sub(1)`. -/
def maskOf (W m : Nat) : Nat := wrappingSub W (wrappingNextPowerOfTwo W m) 1

/-- The rejection-sampling loop of `Rand::rand_bounded_u32` /
`rand_bounded_u64` (width generic), with fuel: draw `x = mask & raw`,
accept when `x < m`, otherwise retry.  `none` means the loop is still
running after `fuel` iterations. -/
def randBounded (W : Nat) {σ : Type} (raw : σ → Nat × σ) (m : Nat) :
    Nat → σ → Option (Nat × σ)
  | 0, _ => none
  | fuel + 1, s =>
      let p := raw s
      let x := maskOf W m &&& p.1
      if x < m then some (x, p.2) else randBounded W raw m fuel p.2

/-- `Rand::rand_bounded_u32`, drawing from the generator's `rand_u32`. -/
def randBoundedU32 {σ : Type} (raw : σ → Nat × σ) : Nat → Nat → σ → Option (Nat × σ) :=
  randBounded 32 raw

/-- `Rand::rand_bounded_u64`, drawing from the generator's `rand_u64`. -/
def randBoundedU64 {σ : Type} (raw : σ → Nat × σ) : Nat → Nat → σ → Option (Nat × σ) :=
  randBounded 64 raw

/-- `Rand::rand_bounded_usize` on a 64-bit target:
`self.rand_bounded_u64(m as u64) as usize`. -/
def randBoundedUsize {σ : Type} (raw : σ → Nat × σ) : Nat → Nat → σ → Option (Nat × σ) :=
  randBoundedU64 raw

/-- The trait's default `Rand::rand_u64`:
`(self.rand_u32() as u64) << 32 | (self.rand_u32() as u64)`. -/
def defaultRandU64 {σ : Type} (randU32 : σ → Nat × σ) (s : σ) : Nat × σ :=
  let p := randU32 s
  let q := randU32 p.2
  ((p.1 <<< 32) ||| q.1, q.2)

/-- `Rng::from_seed` for the xorshift128+ engine: the state pair is the
seed XORed with two fixed 64-bit constants. -/
def rngFromSeed (seed : Nat) : Nat × Nat :=
  (seed ^^^ 0xf4dbdf2183dcefb7, seed ^^^ 0x1ad5be0d6dd28e9b)

/-- `Rng::rand_u64`, the xorshift128+ step: from state `(x, y)` compute
`x1 = x ^ (x << 23)` (64-bit wrapping shift), new state `(y, y1)` with
`y1 = x1 ^ y ^ (x1 >> 17) ^ (y >> 26)`, and output `y1.wrapping_add(y)`. -/
def rngRandU64 (s : Nat × Nat) : Nat × (Nat × Nat) :=
  let x := s.1
  let y := s.2
  let x1 := x ^^^ ((x <<< 23) % 2 ^ 64)
  let y1 := x1 ^^^ y ^^^ (x1 >>> 17) ^^^ (y >>> 26)
  ((y1 + y) % 2 ^ 64, (y, y1))

/-- `Rng::rand_u32`: `(self.rand_u64() >> 32) as u32`, the high 32 bits
of the 64-bit output. -/
def rngRandU32 (s : Nat × Nat) : Nat × (Nat × Nat) :=
  let p := rngRandU64 s
  (p.1 >>> 32, p.2)

/-- The state transition of one `Rng::rand_u64` call. -/
def rngStep (s : Nat × Nat) : Nat × Nat := (rngRandU64 s).2

/-- A deterministic raw-`u32` source for concrete evaluations: state is a
position into the stream `f`, one draw yields `f position` (reduced to 32
bits) and advances the position. -/
def streamRaw32 (f : Nat → Nat) : Nat → Nat × Nat := fun n => (f n % 2 ^ 32, n + 1)

/-- A deterministic raw-`u64` source for concrete evaluations. -/
def streamRaw64 (f : Nat → Nat) : Nat → Nat × Nat := fun n => (f n % 2 ^ 64, n + 1)

/-- The all-zero raw stream. -/
def zeroStream : Nat → Nat := fun _ => 0

/-- The good-state invariant of the xorshift128+ engine: both words are
64-bit values and they are not both zero. -/
def RngGood (s : Nat × Nat) : Prop :=
  s.1 < 2 ^ 64 ∧ s.2 < 2 ^ 64 ∧ s ≠ (0, 0)

/-- State advance of one raw draw. -/
def rawStep {σ : Type} (raw : σ → Nat × σ) (s : σ) : σ := (raw s).2

/-- Value of the `j`-th raw draw (counting from 0) starting at state `s`. -/
def drawVal {σ : Type} (raw : σ → Nat × σ) (s : σ) (j : Nat) : Nat :=
  (raw ((rawStep raw)^[j] s)).1

/-- `Rand::choice`: `&a[self.rand_bounded_usize(a.len())]`.  The bounded
draw's fuel-exhaustion `none` propagates; an out-of-range index would make
the lookup `a[i]?` fail (the slice-indexing panic). -/
def choice {σ α : Type} (raw64 : σ → Nat × σ) (fuel : Nat) (a : List α) (s : σ) :
    Option (α × σ) :=
  match randBoundedUsize raw64 a.length fuel s with
  | none => none
  | some (i, s') =>
    match a[i]? with
    | none => none
    | some x => some (x, s')

/-- `slice::swap(i, j)` on a list (total: out-of-range indices leave the
list unchanged; every use below is in bounds). -/
def listSwap {α : Type} (a : List α) (i j : Nat) : List α :=
  match a[i]?, a[j]? with
  | some x, some y => (a.set i y).set j x
  | _, _ => a

/-- The `while i > 0` loop of `Rand::shuffle`: at loop counter `i + 1`,
draw `j = rand_bounded_usize(i + 2)` (that is, `counter + 1`), swap
positions `counter` and `j`, decrement.  Each bounded draw gets `fuel`. -/
def shuffleLoop {σ α : Type} (raw64 : σ → Nat × σ) (fuel : Nat) :
    Nat → List α → σ → Option (List α × σ)
  | 0, a, s => some (a, s)
  | i + 1, a, s =>
    match randBoundedUsize raw64 (i + 2) fuel s with
    | none => none
    | some (j, s') => shuffleLoop raw64 fuel i (listSwap a (i + 1) j) s'

/-- `Rand::shuffle`: early return on the empty slice, otherwise run the
loop from `len - 1` down to `1`. -/
def shuffle {σ α : Type} (raw64 : σ → Nat × σ) (fuel : Nat) (a : List α) (s : σ) :
    Option (List α × σ) :=
  if a.isEmpty then some (a, s) else shuffleLoop raw64 fuel (a.length - 1) a s

/-- The `for p in a` loop of `Rand::fill`: `n` bytes remain to be written,
`x` is the current (already shifted) word, `count` the number of further
bytes to take from `x` after the current one.  Returns the written bytes
and the final generator state. -/
def fillLoop {σ : Type} (raw32 : σ → Nat × σ) : Nat → Nat → Nat → σ → List Nat × σ
  | 0, _, _, s => ([], s)
  | n + 1, x, count, s =>
    if count = 0 then
      let p := raw32 s
      let r := fillLoop raw32 n p.1 3 p.2
      (x % 256 :: r.1, r.2)
    else
      let r := fillLoop raw32 n (x >>> 8) (count - 1) s
      (x % 256 :: r.1, r.2)

/-- `Rand::fill` on a buffer of length `n`: draw a first word before the
loop, then write bytes least-significant-first, redrawing after every
fourth byte written. -/
def fill {σ : Type} (raw32 : σ → Nat × σ) (n : Nat) (s : σ) : List Nat × σ :=
  let p := raw32 s
  fillLoop raw32 n p.1 3 p.2

/-- Reinterpretation of a `W`-bit unsigned value as a signed one
(Rust's `as iW` on a `uW` value). -/
def toSigned (W : Nat) (x : Nat) : Int :=
  if x < 2 ^ (W - 1) then (x : Int) else (x : Int) - 2 ^ W

/-- Truncating cast of a signed value to `W` unsigned bits
(Rust's `as uW` on an `iW` value). -/
def toUnsigned (W : Nat) (v : Int) : Nat := (v % 2 ^ W).toNat

/-- Overflow-checked `W`-bit signed subtraction: Rust's `b - a` on `iW`
with debug assertions, `none` being the arithmetic-overflow panic. -/
def checkedSub (W : Nat) (b a : Int) : Option Int :=
  if -2 ^ (W - 1) ≤ b - a ∧ b - a < 2 ^ (W - 1) then some (b - a) else none

/-- Overflow-checked `W`-bit signed addition. -/
def checkedAdd (W : Nat) (a b : Int) : Option Int :=
  if -2 ^ (W - 1) ≤ a + b ∧ a + b < 2 ^ (W - 1) then some (a + b) else none

/-- Reduction of a signed value into the `W`-bit signed range (the effect
of Rust's release-mode wrapping arithmetic). -/
def wrapSigned (W : Nat) (v : Int) : Int :=
  (v + 2 ^ (W - 1)) % 2 ^ W - 2 ^ (W - 1)

/-- `Rand::rand_range_i32` / `rand_range_i64` (width generic), under
checked (debug) overflow semantics:
`a + self.rand_bounded_uW((b - a) as uW) as iW`. -/
def randRangeSigned (W : Nat) {σ : Type} (raw : σ → Nat × σ) (fuel : Nat)
    (a b : Int) (s : σ) : Option (Int × σ) :=
  match checkedSub W b a with
  | none => none
  | some d =>
    match randBounded W raw (toUnsigned W d) fuel s with
    | none => none
    | some (x, s') =>
      match checkedAdd W a (toSigned W x) with
      | none => none
      | some v => some (v, s')

/-- `Rand::rand_range_i32` (checked overflow semantics). -/
def randRangeI32 {σ : Type} (raw : σ → Nat × σ) :
    Nat → Int → Int → σ → Option (Int × σ) :=
  randRangeSigned 32 raw

/-- `Rand::rand_range_i64` (checked overflow semantics). -/
def randRangeI64 {σ : Type} (raw : σ → Nat × σ) :
    Nat → Int → Int → σ → Option (Int × σ) :=
  randRangeSigned 64 raw

/-- The same range sampler under release (wrapping) overflow semantics:
`b - a` wraps, the sum wraps. -/
def randRangeSignedWrapping (W : Nat) {σ : Type} (raw : σ → Nat × σ) (fuel : Nat)
    (a b : Int) (s : σ) : Option (Int × σ) :=
  match randBounded W raw (toUnsigned W (b - a)) fuel s with
  | none => none
  | some (x, s') => some (wrapSigned W (a + toSigned W x), s')

/-! ## Basic facts about the mask -/

theorem nextPowerOfTwoAux_eq {fuel m : Nat} (h : m ≤ fuel) :
    nextPowerOfTwoAux fuel m = 2 ^ Nat.clog 2 m := by
  induction fuel generalizing m with
  | zero =>
    have hm : m = 0 := by omega
    subst hm
    simp [nextPowerOfTwoAux, Nat.clog_of_right_le_one]
  | succ fuel ih =>
    by_cases hm : m ≤ 1
    · simp [nextPowerOfTwoAux, hm, Nat.clog_of_right_le_one hm]
    · have h2 : (m + 1) / 2 ≤ fuel := by omega
      have hrec : Nat.clog 2 m = Nat.clog 2 ((m + 1) / 2) + 1 := by
        have := Nat.clog_of_two_le one_lt_two (show 2 ≤ m by omega)
        simpa using this
      simp only [nextPowerOfTwoAux, if_neg hm, ih h2, hrec, pow_succ]
      ring

theorem nextPowerOfTwo_eq_pow_clog (n : Nat) :
    nextPowerOfTwo n = 2 ^ Nat.clog 2 n :=
  nextPowerOfTwoAux_eq le_rfl

theorem nextPowerOfTwo_le {n : Nat} : n ≤ nextPowerOfTwo n := by
  rw [nextPowerOfTwo_eq_pow_clog]
  exact Nat.le_pow_clog one_lt_two n

theorem nextPowerOfTwo_pos (n : Nat) : 0 < nextPowerOfTwo n := by
  rw [nextPowerOfTwo_eq_pow_clog]
  exact Nat.pos_pow_of_pos _ (by norm_num)

theorem nextPowerOfTwo_le_of_le {n k : Nat} (h : n ≤ 2 ^ k) :
    nextPowerOfTwo n ≤ 2 ^ k := by
  rw [nextPowerOfTwo_eq_pow_clog]
  exact Nat.pow_le_pow_right (by norm_num) ((Nat.le_pow_iff_clog_le one_lt_two).1 h)

theorem wrappingSub_one {W w : Nat} (h1 : 0 < w) (h2 : w ≤ 2 ^ W) :
    wrappingSub W w 1 = w - 1 := by
  unfold wrappingSub
  have : w + 2 ^ W - 1 = (w - 1) + 2 ^ W := by omega
  rw [this, Nat.add_mod_right, Nat.mod_eq_of_lt (by omega)]

/-- The mask computed by the source equals `next_power_of_two(m) - 1` in
exact (non-wrapping) arithmetic, for any modulus of the `W`-bit type. -/
theorem maskOf_eq (W : Nat) {m : Nat} (hm : 0 < m) (hW : 0 < W) (h : m < 2 ^ W) :
    maskOf W m = 2 ^ Nat.clog 2 m - 1 := by
  unfold maskOf wrappingNextPowerOfTwo
  by_cases hc : m ≤ 2 ^ (W - 1)
  · rw [if_pos hc]
    have h1 : nextPowerOfTwo m ≤ 2 ^ W :=
      le_trans (nextPowerOfTwo_le_of_le hc) (Nat.pow_le_pow_right (by norm_num) (by omega))
    rw [wrappingSub_one (nextPowerOfTwo_pos m) h1, nextPowerOfTwo_eq_pow_clog]
  · rw [if_neg hc]
    have hle : m ≤ 2 ^ W := le_of_lt h
    have hclogW : Nat.clog 2 m ≤ W := (Nat.le_pow_iff_clog_le one_lt_two).1 hle
    have hWclog : W ≤ Nat.clog 2 m := by
      by_contra hlt
      push_neg at hlt
      have : m ≤ 2 ^ (W - 1) := by
        have : Nat.clog 2 m ≤ W - 1 := by omega
        calc m ≤ 2 ^ Nat.clog 2 m := Nat.le_pow_clog one_lt_two m
        _ ≤ 2 ^ (W - 1) := Nat.pow_le_pow_right (by norm_num) this
      exact hc this
    have hWeq : Nat.clog 2 m = W := le_antisymm hclogW hWclog
    rw [hWeq]
    unfold wrappingSub
    have h1 : 0 + 2 ^ W - 1 = (2 ^ W - 1) := by omega
    rw [h1, Nat.mod_eq_of_lt (by have := Nat.pos_pow_of_pos W (show 0 < 2 by norm_num); omega)]

theorem maskOf_succ_eq_pow (W : Nat) {m : Nat} (hm : 0 < m) (hW : 0 < W) (h : m < 2 ^ W) :
    maskOf W m + 1 = 2 ^ Nat.clog 2 m := by
  rw [maskOf_eq W hm hW h]
  have := Nat.pos_pow_of_pos (Nat.clog 2 m) (show 0 < 2 by norm_num)
  omega

/-! ## C2: the xorshift128+ step equations -/

/-- C2: the xorshift128+ engine `Rng` advances its state `(x, y)` exactly by
`x1 = x xor (x << 23)`, `y1 = x1 xor y xor (x1 >> 17) xor (y >> 26)`, new
state `(y, y1)`; `rand_u64` returns `y1 + y` with wrapping addition; and
`rand_u32` returns the high 32 bits of that 64-bit output (same state
advance).  Shifts are spelled out as multiplication and division by powers
of two. -/
theorem c2_rng_step_equations (x y : Nat) :
    (rngRandU64 (x, y)).2.1 = y
    ∧ (rngRandU64 (x, y)).2.2 =
        (x ^^^ (x * 2 ^ 23 % 2 ^ 64)) ^^^ y
          ^^^ ((x ^^^ (x * 2 ^ 23 % 2 ^ 64)) / 2 ^ 17) ^^^ (y / 2 ^ 26)
    ∧ (rngRandU64 (x, y)).1 = ((rngRandU64 (x, y)).2.2 + y) % 2 ^ 64
    ∧ (rngRandU32 (x, y)).1 = (rngRandU64 (x, y)).1 / 2 ^ 32
    ∧ (rngRandU32 (x, y)).2 = (rngRandU64 (x, y)).2 := by
  simp [rngRandU64, rngRandU32, Nat.shiftLeft_eq, Nat.shiftRight_eq_div_pow]

/-! ## Lemmas about the rejection loop -/

/-- Any value returned by the rejection loop is below the modulus. -/
theorem randBounded_lt (W : Nat) {σ : Type} (raw : σ → Nat × σ) (m : Nat) :
    ∀ (fuel : Nat) (s : σ) (v : Nat) (s' : σ),
      randBounded W raw m fuel s = some (v, s') → v < m := by
  intro fuel
  induction fuel with
  | zero => intro s v s' h; simp [randBounded] at h
  | succ n ih =>
    intro s v s' h
    simp only [randBounded] at h
    split at h
    · rename_i hc
      obtain ⟨rfl, rfl⟩ := by exact Prod.mk.injEq .. ▸ Option.some.injEq .. ▸ h
      exact hc
    · exact ih _ _ _ h

/-- With a zero modulus the loop never accepts: `x < 0` is impossible. -/
theorem randBounded_zero (W : Nat) {σ : Type} (raw : σ → Nat × σ) :
    ∀ (fuel : Nat) (s : σ), randBounded W raw 0 fuel s = none := by
  intro fuel
  induction fuel with
  | zero => intro s; simp [randBounded]
  | succ n ih => intro s; simp [randBounded, ih]

/-- For a power-of-two modulus the mask is `m - 1` and the first draw is
always accepted: the loop returns the masked first draw and the state after
exactly one raw call, for every positive fuel. -/
theorem randBounded_pow_eq (W : Nat) {k : Nat} (hk : k < W) {σ : Type}
    (raw : σ → Nat × σ) {fuel : Nat} (hf : 0 < fuel) (s : σ) :
    randBounded W raw (2 ^ k) fuel s = some ((raw s).1 % 2 ^ k, (raw s).2) := by
  obtain ⟨n, rfl⟩ : ∃ n, fuel = n + 1 := ⟨fuel - 1, by omega⟩
  have hmask : maskOf W (2 ^ k) = 2 ^ k - 1 := by
    rw [maskOf_eq W (Nat.pos_pow_of_pos _ (by norm_num)) (by omega)
      (Nat.pow_lt_pow_of_lt (by norm_num) hk), Nat.clog_pow 2 k one_lt_two]
  have hand : maskOf W (2 ^ k) &&& (raw s).1 = (raw s).1 % 2 ^ k := by
    rw [hmask, Nat.and_comm, Nat.and_pow_two_sub_one_eq_mod]
  simp only [randBounded, hand]
  have : (raw s).1 % 2 ^ k < 2 ^ k := Nat.mod_lt _ (Nat.pos_pow_of_pos _ (by norm_num))
  simp [this]

/-- Counting lemma for zero bias: when `K` divides `N`, every residue
`v < K` has exactly `N / K` preimages under `· % K` among `0, ..., N - 1`. -/
theorem card_filter_mod (N K v : Nat) (hK : 0 < K) (hdvd : K ∣ N) (hv : v < K) :
    ((Finset.range N).filter (fun r => r % K = v)).card = N / K := by
  rw [show ((Finset.range N).filter (fun r => r % K = v)).card
      = (Finset.range (N / K)).card from ?_, Finset.card_range]
  apply Finset.card_nbij' (fun r => r / K) (fun q => q * K + v)
  · intro r hr
    simp only [Finset.mem_filter, Finset.mem_range] at hr
    exact Finset.mem_range.2 (Nat.div_lt_div_of_lt_of_dvd hdvd hr.1)
  · intro q hq
    simp only [Finset.mem_range] at hq
    obtain ⟨c, rfl⟩ := hdvd
    simp only [Finset.mem_filter, Finset.mem_range]
    constructor
    · have hqc : q < c := by
        have := Nat.mul_div_cancel_left c hK
        rwa [Nat.mul_comm K c, Nat.mul_div_cancel _ hK] at hq
      calc q * K + v < q * K + K := by omega
      _ = (q + 1) * K := by ring
      _ ≤ c * K := Nat.mul_le_mul_right K hqc
      _ = K * c := Nat.mul_comm ..
    · rw [Nat.add_comm, Nat.add_mul_mod_self_right, Nat.mod_eq_of_lt hv]
  · intro r hr
    simp only [Finset.mem_filter, Finset.mem_range] at hr
    conv_rhs => rw [← Nat.div_add_mod r K, hr.2]
    rw [Nat.mul_comm]
  · intro q _
    rw [Nat.mul_comm, Nat.mul_add_div hK, Nat.div_eq_of_lt hv, Nat.add_zero]

/-- Whenever the modulus fits the word, its mask-plus-one is a power of two
dividing the full raw range, and masking is reduction mod that power. -/
theorem randBounded_unbiased (W : Nat) {m : Nat} (hm : 0 < m) (hW : 0 < W)
    (h : m < 2 ^ W) {v : Nat} (hv : v < m) :
    ((Finset.range (2 ^ W)).filter (fun r => maskOf W m &&& r = v)).card
      = 2 ^ W / (maskOf W m + 1) := by
  have hmask : maskOf W m + 1 = 2 ^ Nat.clog 2 m := maskOf_succ_eq_pow W hm hW h
  have hand : ∀ r : Nat, maskOf W m &&& r = r % 2 ^ Nat.clog 2 m := by
    intro r
    rw [maskOf_eq W hm hW h, Nat.and_comm, Nat.and_pow_two_sub_one_eq_mod]
  have hclogW : Nat.clog 2 m ≤ W := (Nat.le_pow_iff_clog_le one_lt_two).1 (le_of_lt h)
  simp only [hand, hmask]
  exact card_filter_mod (2 ^ W) (2 ^ Nat.clog 2 m) v
    (Nat.pos_pow_of_pos _ (by norm_num))
    (Nat.pow_dvd_pow 2 hclogW)
    (lt_of_lt_of_le hv (Nat.le_pow_clog one_lt_two m))

/-! ## C1, C3, C8: bounded sampling -/

set_option maxRecDepth 4000

/-- C1: for every modulus `m > 0` of the respective word type,
`rand_bounded_u32(m)` (and likewise `rand_bounded_u64`) returns a value in
`[0, m)`; the mask it uses equals `next_power_of_two(m) - 1` in exact
arithmetic; and the masked draw is unbiased: every value `v < m` has
exactly the same number of raw words mapping to it, namely
`2 ^ W / (mask + 1)` of the `2 ^ W` raw words, so each accepted value is
uniform on `[0, m)` with zero bias. -/
theorem c1_rand_bounded_mask_and_reject (m : Nat) (hm : 0 < m) :
    (m < 2 ^ 32 →
      maskOf 32 m = nextPowerOfTwo m - 1
      ∧ (∀ (σ : Type) (raw : σ → Nat × σ) (fuel : Nat) (s : σ) (v : Nat) (s' : σ),
          randBoundedU32 raw m fuel s = some (v, s') → v < m)
      ∧ (∀ v, v < m →
          ((Finset.range (2 ^ 32)).filter (fun r => maskOf 32 m &&& r = v)).card
            = 2 ^ 32 / (maskOf 32 m + 1)))
    ∧ (m < 2 ^ 64 →
      maskOf 64 m = nextPowerOfTwo m - 1
      ∧ (∀ (σ : Type) (raw : σ → Nat × σ) (fuel : Nat) (s : σ) (v : Nat) (s' : σ),
          randBoundedU64 raw m fuel s = some (v, s') → v < m)
      ∧ (∀ v, v < m →
          ((Finset.range (2 ^ 64)).filter (fun r => maskOf 64 m &&& r = v)).card
            = 2 ^ 64 / (maskOf 64 m + 1))) := by
  constructor
  · intro h32
    refine ⟨by rw [maskOf_eq 32 hm (by norm_num) h32, nextPowerOfTwo_eq_pow_clog], ?_, ?_⟩
    · intro σ raw fuel s v s' h
      exact randBounded_lt 32 raw m fuel s v s' h
    · intro v hv
      exact randBounded_unbiased 32 hm (by norm_num) h32 hv
  · intro h64
    refine ⟨by rw [maskOf_eq 64 hm (by norm_num) h64, nextPowerOfTwo_eq_pow_clog], ?_, ?_⟩
    · intro σ raw fuel s v s' h
      exact randBounded_lt 64 raw m fuel s v s' h
    · intro v hv
      exact randBounded_unbiased 64 hm (by norm_num) h64 hv

/-- Witness for C1 at `m = 5`: the loop on a concrete stream returns `0`
after one draw, and the theorem yields `0 < 5` for it. -/
theorem c1_rand_bounded_mask_and_reject_witness :
    (0 : Nat) < 5 ∧ (5 : Nat) < 2 ^ 32
    ∧ randBoundedU32 (streamRaw32 zeroStream) 5 1 0 = some (0, 1)
    ∧ (0 : Nat) < 5 :=
  ⟨by decide, by decide, by decide,
    ((c1_rand_bounded_mask_and_reject 5 (by decide)).1 (by decide)).2.1
      Nat (streamRaw32 zeroStream) 1 0 0 1 (by decide)⟩

/-- C3: contrary to the claim, a modulus of `0` is not rejected before the
loop and the call does not fail fast: the mask is `0`, the masked draw is
always `0`, the acceptance test `0 < 0` never succeeds, and so the
rejection loop never returns, for any amount of fuel (shown here on a
concrete generator for both widths). -/
theorem c3_zero_modulus_never_returns :
    (¬ ∃ (fuel v s' : Nat), randBoundedU32 (streamRaw32 zeroStream) 0 fuel 0 = some (v, s'))
    ∧ (¬ ∃ (fuel v s' : Nat), randBoundedU64 (streamRaw64 zeroStream) 0 fuel 0 = some (v, s')) := by
  constructor
  · rintro ⟨fuel, v, s', h⟩
    rw [randBoundedU32, randBounded_zero 32 (streamRaw32 zeroStream) fuel 0] at h
    exact Option.noConfusion h
  · rintro ⟨fuel, v, s', h⟩
    rw [randBoundedU64, randBounded_zero 64 (streamRaw64 zeroStream) fuel 0] at h
    exact Option.noConfusion h

/-- C8: for a power-of-two modulus `2 ^ k` of the respective word type, the
first masked draw is always accepted: with any positive fuel the loop
returns the first raw word reduced mod `2 ^ k` together with the state
after exactly one underlying draw. -/
theorem c8_pow_two_single_draw (k : Nat) :
    (k < 32 → ∀ (σ : Type) (raw : σ → Nat × σ) (fuel : Nat) (s : σ), 0 < fuel →
        randBoundedU32 raw (2 ^ k) fuel s = some ((raw s).1 % 2 ^ k, (raw s).2))
    ∧ (k < 64 → ∀ (σ : Type) (raw : σ → Nat × σ) (fuel : Nat) (s : σ), 0 < fuel →
        randBoundedU64 raw (2 ^ k) fuel s = some ((raw s).1 % 2 ^ k, (raw s).2)) := by
  constructor
  · intro hk σ raw fuel s hf
    exact randBounded_pow_eq 32 hk raw hf s
  · intro hk σ raw fuel s hf
    exact randBounded_pow_eq 64 hk raw hf s

/-- Witness for C8 at `m = 2 ^ 3` on a concrete stream with fuel `1`. -/
theorem c8_pow_two_single_draw_witness :
    (3 : Nat) < 32 ∧ (0 : Nat) < 1
    ∧ randBoundedU32 (streamRaw32 zeroStream) (2 ^ 3) 1 0
        = some ((streamRaw32 zeroStream 0).1 % 2 ^ 3, (streamRaw32 zeroStream 0).2) :=
  ⟨by decide, by decide,
    (c8_pow_two_single_draw 3).1 (by decide) Nat (streamRaw32 zeroStream) 1 0 (by decide)⟩

/-! ## C4: the state of `Rng` is never `(0, 0)` -/

/-- If `x = (x << 23) mod 2^64` for a 64-bit `x`, then `x = 0`: otherwise
`2^64` would divide `x * (2^23 - 1)` with the second factor odd. -/
theorem eq_zero_of_eq_shiftLeft_mod {x : Nat} (hx : x < 2 ^ 64)
    (h : x = x <<< 23 % 2 ^ 64) : x = 0 := by
  rw [Nat.shiftLeft_eq] at h
  have hle : x ≤ x * 2 ^ 23 := Nat.le_mul_of_pos_right x (by norm_num)
  have hdvd : 2 ^ 64 ∣ x * 2 ^ 23 - x := by
    refine (Nat.modEq_iff_dvd' hle).1 ?_
    show x % 2 ^ 64 = x * 2 ^ 23 % 2 ^ 64
    rw [Nat.mod_eq_of_lt hx]
    exact h
  have heq : x * 2 ^ 23 - x = x * (2 ^ 23 - 1) := by
    rw [Nat.mul_sub_left_distrib, Nat.mul_one]
  have hcop : Nat.Coprime (2 ^ 64) (2 ^ 23 - 1) :=
    Nat.Coprime.pow_left 64 (by decide)
  exact Nat.eq_zero_of_dvd_of_lt (hcop.dvd_of_dvd_mul_right (heq ▸ hdvd)) hx

/-- If `x = x >> k` with `k > 0`, then `x = 0`. -/
theorem eq_zero_of_eq_shiftRight {x k : Nat} (hk : 0 < k) (h : x = x >>> k) :
    x = 0 := by
  by_contra hx
  rw [Nat.shiftRight_eq_div_pow] at h
  have : x / 2 ^ k < x :=
    Nat.div_lt_self (Nat.pos_of_ne_zero hx) (Nat.one_lt_two_pow (by omega))
  omega

theorem rngFromSeed_good {seed : Nat} (h : seed < 2 ^ 64) :
    RngGood (rngFromSeed seed) := by
  refine ⟨Nat.xor_lt_two_pow h (by norm_num), Nat.xor_lt_two_pow h (by norm_num), ?_⟩
  intro hzero
  have h1 : seed ^^^ 0xf4dbdf2183dcefb7 = 0 := congrArg Prod.fst hzero
  have h2 : seed ^^^ 0x1ad5be0d6dd28e9b = 0 := congrArg Prod.snd hzero
  have e1 : seed = 0xf4dbdf2183dcefb7 := Nat.xor_eq_zero.1 h1
  have e2 : seed = 0x1ad5be0d6dd28e9b := Nat.xor_eq_zero.1 h2
  rw [e1] at e2
  exact absurd e2 (by decide)

theorem rngStep_good {s : Nat × Nat} (h : RngGood s) : RngGood (rngStep s) := by
  obtain ⟨h1, h2, hne⟩ := h
  have hx1lt : s.1 ^^^ (s.1 <<< 23 % 2 ^ 64) < 2 ^ 64 :=
    Nat.xor_lt_two_pow h1 (Nat.mod_lt _ (by norm_num))
  have hy1lt :
      (s.1 ^^^ (s.1 <<< 23 % 2 ^ 64)) ^^^ s.2
        ^^^ ((s.1 ^^^ (s.1 <<< 23 % 2 ^ 64)) >>> 17) ^^^ (s.2 >>> 26) < 2 ^ 64 := by
    refine Nat.xor_lt_two_pow (Nat.xor_lt_two_pow (Nat.xor_lt_two_pow hx1lt h2) ?_) ?_
    · exact lt_of_le_of_lt (by rw [Nat.shiftRight_eq_div_pow]; exact Nat.div_le_self _ _) hx1lt
    · exact lt_of_le_of_lt (by rw [Nat.shiftRight_eq_div_pow]; exact Nat.div_le_self _ _) h2
  refine ⟨h2, hy1lt, ?_⟩
  intro hzero
  have hy : s.2 = 0 := congrArg Prod.fst hzero
  have hy1 : (s.1 ^^^ (s.1 <<< 23 % 2 ^ 64)) ^^^ s.2
      ^^^ ((s.1 ^^^ (s.1 <<< 23 % 2 ^ 64)) >>> 17) ^^^ (s.2 >>> 26) = 0 :=
    congrArg Prod.snd hzero
  rw [hy] at hy1
  simp only [Nat.xor_zero, Nat.zero_shiftRight] at hy1
  have hx1 : s.1 ^^^ (s.1 <<< 23 % 2 ^ 64) = 0 :=
    eq_zero_of_eq_shiftRight (show 0 < 17 by norm_num) (Nat.xor_eq_zero.1 hy1) ▸ rfl
  have hx : s.1 = 0 :=
    eq_zero_of_eq_shiftLeft_mod h1 (Nat.xor_eq_zero.1 hx1)
  exact hne (Prod.ext hx hy)

/-- C4: for every 64-bit seed, the xorshift128+ state pair is never
`(0, 0)`: not right after `Rng::from_seed`, and not after any number of
`rand_u64` steps from the constructed state. -/
theorem c4_rng_state_never_zero (seed : Nat) (h : seed < 2 ^ 64) (n : Nat) :
    rngStep^[n] (rngFromSeed seed) ≠ (0, 0) := by
  have good : RngGood (rngStep^[n] (rngFromSeed seed)) := by
    induction n with
    | zero => simpa using rngFromSeed_good h
    | succ n ih =>
      rw [Function.iterate_succ_apply']
      exact rngStep_good ih
  exact good.2.2

/-- Witness for C4: seed `0`, three steps. -/
theorem c4_rng_state_never_zero_witness :
    (0 : Nat) < 2 ^ 64 ∧ rngStep^[3] (rngFromSeed 0) ≠ (0, 0) :=
  ⟨by decide, c4_rng_state_never_zero 0 (by decide) 3⟩

/-! ## C5: `rand_u64` versus two `rand_u32` draws -/

/-- C5 counterexample: for `Rng` from seed 0, one `rand_u64` call agrees
with concatenating two consecutive `rand_u32` calls neither in the value
returned nor in the final state — `Rng` overrides the trait's default
`rand_u64` with a native one-step 64-bit draw. -/
theorem c5_counterexample_rng_u64_not_two_u32 :
    (rngRandU64 (rngFromSeed 0)).1 ≠ (defaultRandU64 rngRandU32 (rngFromSeed 0)).1
    ∧ (rngRandU64 (rngFromSeed 0)).2 ≠ (defaultRandU64 rngRandU32 (rngFromSeed 0)).2 := by
  exact ⟨by decide, by decide⟩

/-- C5 (amended): the trait's default `rand_u64` concatenates two
consecutive `rand_u32` outputs — its value is `2^32 * hi + lo` where `hi`
is the first draw and `lo` the second (a 32-bit word), and its final state
is the one after the two draws — whereas `Rng` overrides `rand_u64` with a
single xorshift128+ step: its `rand_u32` is derived from `rand_u64` as the
high 32 bits of one step, so an `Rng` 64-bit draw advances the state once,
not twice. -/
theorem c5_default_u64_concatenates (σ : Type) (randU32 : σ → Nat × σ) (s : σ)
    (h2 : (randU32 (randU32 s).2).1 < 2 ^ 32) :
    ((defaultRandU64 randU32 s).1
        = 2 ^ 32 * (randU32 s).1 + (randU32 (randU32 s).2).1
      ∧ (defaultRandU64 randU32 s).2 = (randU32 (randU32 s).2).2)
    ∧ (∀ t : Nat × Nat,
        rngRandU32 t = ((rngRandU64 t).1 / 2 ^ 32, rngStep t)) := by
  refine ⟨⟨?_, rfl⟩, ?_⟩
  · show (randU32 s).1 <<< 32 ||| (randU32 (randU32 s).2).1
      = 2 ^ 32 * (randU32 s).1 + (randU32 (randU32 s).2).1
    rw [Nat.shiftLeft_eq, Nat.mul_comm]
    exact (Nat.mul_add_lt_is_or h2 _).symm
  · intro t
    show ((rngRandU64 t).1 >>> 32, (rngRandU64 t).2) = ((rngRandU64 t).1 / 2 ^ 32, rngStep t)
    rw [Nat.shiftRight_eq_div_pow]
    rfl

/-- Witness for C5 (amended) on a concrete stream generator. -/
theorem c5_default_u64_concatenates_witness :
    (streamRaw32 zeroStream (streamRaw32 zeroStream 0).2).1 < 2 ^ 32
    ∧ (defaultRandU64 (streamRaw32 zeroStream) 0).1
        = 2 ^ 32 * (streamRaw32 zeroStream 0).1
            + (streamRaw32 zeroStream (streamRaw32 zeroStream 0).2).1 :=
  ⟨by decide,
    (c5_default_u64_concatenates Nat (streamRaw32 zeroStream) 0 (by decide)).1.1⟩

/-! ## C6, C10: shuffle and choice -/

theorem listSwap_length {α : Type} (a : List α) (i j : Nat) :
    (listSwap a i j).length = a.length := by
  unfold listSwap
  cases hx : a[i]? with
  | none => rfl
  | some x =>
    cases hy : a[j]? with
    | none => rfl
    | some y => simp

theorem listSwap_perm {α : Type} [DecidableEq α] (a : List α) (i j : Nat)
    (hi : i < a.length) (hj : j < a.length) : List.Perm (listSwap a i j) a := by
  have hx : a[i]? = some a[i] := List.getElem?_eq_getElem hi
  have hy : a[j]? = some a[j] := List.getElem?_eq_getElem hj
  have hswap : listSwap a i j = (a.set i a[j]).set j a[i] := by
    unfold listSwap
    rw [hx, hy]
  rw [hswap]
  apply List.perm_iff_count.2
  intro b
  have hj2 : j < (a.set i a[j]).length := by
    rw [List.length_set]
    exact hj
  have hji : (a.set i a[j])[j] = a[j] := by
    by_cases hij : i = j
    · subst hij
      exact List.getElem_set_self hj2
    · exact List.getElem_set_ne hij hj2
  rw [List.count_set a[i] b _ j hj2, List.count_set a[j] b a i hi, hji]
  have hmem : a[i] ∈ a := List.getElem_mem hi
  have hcount : (if a[i] == b then 1 else 0) ≤ a.count b := by
    by_cases hib : a[i] = b
    · subst hib
      rw [if_pos (beq_self_eq_true _)]
      exact List.count_pos_iff.2 hmem
    · simp [hib]
  have key : ∀ (c p q : Nat), p ≤ c → c - p + q - q + p = c := by
    intro c p q h
    omega
  exact key (a.count b) _ _ hcount

theorem shuffleLoop_perm {σ α : Type} [DecidableEq α] (raw64 : σ → Nat × σ)
    (fuel : Nat) :
    ∀ (i : Nat) (a : List α) (s : σ), i < a.length →
      ∀ (l' : List α) (s' : σ),
        shuffleLoop raw64 fuel i a s = some (l', s') → List.Perm l' a := by
  intro i
  induction i with
  | zero =>
    intro a s _ l' s' h
    simp only [shuffleLoop, Option.some.injEq, Prod.mk.injEq] at h
    rw [h.1]
  | succ i ih =>
    intro a s hi l' s' h
    simp only [shuffleLoop] at h
    cases heq : randBoundedUsize raw64 (i + 2) fuel s with
    | none => rw [heq] at h; exact absurd h (by simp)
    | some p =>
      rw [heq] at h
      have hj : p.1 < i + 2 := randBounded_lt 64 raw64 (i + 2) fuel s p.1 p.2 heq
      have hlen : (listSwap a (i + 1) p.1).length = a.length := listSwap_length ..
      have hrec : List.Perm l' (listSwap a (i + 1) p.1) :=
        ih (listSwap a (i + 1) p.1) p.2 (by omega) l' s' h
      exact hrec.trans (listSwap_perm a (i + 1) p.1 hi (by omega))

/-- C6: whenever `shuffle` completes, the result is a permutation of the
input (same multiset of elements) — it is the Fisher-Yates loop drawing
`j = rand_bounded(i + 1)` and swapping positions `i` and `j` for `i` from
`len - 1` down to `1` — and on slices of length 0 or 1 it is a no-op that
returns immediately with the generator state unchanged (no draw). -/
theorem c6_shuffle_permutes (σ α : Type) (raw64 : σ → Nat × σ) (fuel : Nat)
    (a : List α) (s : σ) :
    (∀ (l' : List α) (s' : σ), shuffle raw64 fuel a s = some (l', s') →
      (l' : Multiset α) = (a : Multiset α))
    ∧ (a.length ≤ 1 → shuffle raw64 fuel a s = some (a, s)) := by
  classical
  constructor
  · intro l' s' h
    unfold shuffle at h
    by_cases hemp : a.isEmpty
    · rw [if_pos hemp] at h
      simp only [Option.some.injEq, Prod.mk.injEq] at h
      rw [h.1]
    · rw [if_neg hemp] at h
      have hlen : 0 < a.length := by
        cases a with
        | nil => simp at hemp
        | cons x t => simp
      rcases Nat.eq_or_lt_of_le hlen with h1 | h1
      · have : a.length - 1 = 0 := by omega
        rw [this] at h
        simp only [shuffleLoop, Option.some.injEq, Prod.mk.injEq] at h
        rw [h.1]
      · have : a.length - 1 < a.length := by omega
        exact Multiset.coe_eq_coe.2
          (shuffleLoop_perm raw64 fuel (a.length - 1) a s this l' s' h)
  · intro hle
    unfold shuffle
    by_cases hemp : a.isEmpty
    · rw [if_pos hemp]
    · rw [if_neg hemp]
      have : a.length - 1 = 0 := by
        cases a with
        | nil => simp at hemp
        | cons x t => simp only [List.length_cons] at hle ⊢; omega
      rw [this]
      rfl

/-- Witness for C6: a concrete shuffle of `[1, 2, 3, 4]` (three draws,
each accepted at once on the zero stream) and the no-op on `[5]`. -/
theorem c6_shuffle_permutes_witness :
    shuffle (streamRaw64 zeroStream) 1 [1, 2, 3, 4] 0 = some ([2, 3, 4, 1], 3)
    ∧ (([2, 3, 4, 1] : List Nat) : Multiset Nat) = (([1, 2, 3, 4] : List Nat) : Multiset Nat)
    ∧ ([5] : List Nat).length ≤ 1
    ∧ shuffle (streamRaw64 zeroStream) 1 [5] 0 = some ([5], 0) :=
  ⟨by decide,
    (c6_shuffle_permutes Nat Nat (streamRaw64 zeroStream) 1 [1, 2, 3, 4] 0).1
      [2, 3, 4, 1] 3 (by decide),
    by decide,
    (c6_shuffle_permutes Nat Nat (streamRaw64 zeroStream) 1 [5] 0).2 (by decide)⟩

/-- C10 (amended): on any slice, when the bounded draw
`rand_bounded_usize(len)` returns an index, that index is in bounds and
`choice` returns the element at it; on the empty slice the bounded draw
with modulus `0` never returns (for any fuel), so `choice` neither returns
a value nor reaches the indexing. -/
theorem c10_choice_in_bounds (σ α : Type) (raw64 : σ → Nat × σ) (fuel : Nat)
    (a : List α) (s : σ) :
    (∀ (i : Nat) (s' : σ), randBoundedUsize raw64 a.length fuel s = some (i, s') →
      ∃ h : i < a.length, choice raw64 fuel a s = some (a.get ⟨i, h⟩, s'))
    ∧ (a = [] → randBoundedUsize raw64 a.length fuel s = none
        ∧ choice raw64 fuel a s = none) := by
  constructor
  · intro i s' h
    have hi : i < a.length := randBounded_lt 64 raw64 a.length fuel s i s' h
    refine ⟨hi, ?_⟩
    unfold choice
    rw [h]
    simp only [List.getElem?_eq_getElem hi, List.get_eq_getElem]
  · intro ha
    subst ha
    have h0 : randBoundedUsize raw64 ([] : List α).length fuel s = none :=
      randBounded_zero 64 raw64 fuel s
    refine ⟨h0, ?_⟩
    unfold choice
    rw [h0]

/-- Witness for C10 on `[10, 20, 30]` with a concrete stream. -/
theorem c10_choice_in_bounds_witness :
    randBoundedUsize (streamRaw64 zeroStream) ([10, 20, 30] : List Nat).length 1 0
        = some (0, 1)
    ∧ ∃ h : 0 < ([10, 20, 30] : List Nat).length,
        choice (streamRaw64 zeroStream) 1 ([10, 20, 30] : List Nat) 0
          = some (([10, 20, 30] : List Nat).get ⟨0, h⟩, 1) :=
  ⟨by decide,
    (c10_choice_in_bounds Nat Nat (streamRaw64 zeroStream) 1 [10, 20, 30] 0).1
      0 1 (by decide)⟩

/-- C10 counterexample: on the empty slice `choice` does not fail with an
indexing error — the bounded draw with modulus `len = 0` never returns for
any amount of fuel, so `choice` never returns and the indexing is never
reached. -/
theorem c10_counterexample_choice_empty_hangs :
    (¬ ∃ (fuel : Nat) (r : Nat × Nat),
        randBoundedUsize (streamRaw64 zeroStream) ([] : List Nat).length fuel 0
          = some r)
    ∧ (¬ ∃ (fuel : Nat) (r : Nat × Nat),
        choice (streamRaw64 zeroStream) fuel ([] : List Nat) 0 = some r) := by
  have h0 : ∀ fuel : Nat,
      randBoundedUsize (streamRaw64 zeroStream) ([] : List Nat).length fuel 0 = none :=
    fun fuel => randBounded_zero 64 (streamRaw64 zeroStream) fuel 0
  constructor
  · rintro ⟨fuel, r, h⟩
    rw [h0 fuel] at h
    exact Option.noConfusion h
  · rintro ⟨fuel, r, h⟩
    unfold choice at h
    rw [h0 fuel] at h
    exact Option.noConfusion h

/-! ## C7: fill -/

theorem drawVal_rawStep {σ : Type} (raw32 : σ → Nat × σ) (s : σ) (j : Nat) :
    drawVal raw32 (rawStep raw32 s) j = drawVal raw32 s (j + 1) := by
  unfold drawVal
  rw [Function.iterate_succ_apply]

/-- Invariant of the `fill` loop: starting with shifted word `x` and
`count = c ≤ 3`, the bytes written are the low bytes of `x` for the first
`c + 1` positions and then the bytes of the successive fresh draws, and the
final state is reached after `(n - c - 1) / 4 + 1` fresh draws (none when
`n ≤ c`). -/
theorem fillLoop_spec {σ : Type} (raw32 : σ → Nat × σ) :
    ∀ (n x c : Nat) (s : σ), c ≤ 3 →
      (fillLoop raw32 n x c s).1 = (List.range n).map (fun k =>
          if k ≤ c then (x >>> (8 * k)) % 256
          else (drawVal raw32 s ((k - c - 1) / 4) >>> (8 * ((k - c - 1) % 4))) % 256)
      ∧ (fillLoop raw32 n x c s).2
          = (rawStep raw32)^[if n ≤ c then 0 else (n - c - 1) / 4 + 1] s := by
  intro n
  induction n with
  | zero =>
    intro x c s hc
    refine ⟨rfl, ?_⟩
    rw [if_pos (Nat.zero_le c)]
    rfl
  | succ n ih =>
    intro x c s hc
    by_cases h0 : c = 0
    · subst h0
      have hfl : fillLoop raw32 (n + 1) x 0 s
          = (x % 256 :: (fillLoop raw32 n (raw32 s).1 3 (rawStep raw32 s)).1,
             (fillLoop raw32 n (raw32 s).1 3 (rawStep raw32 s)).2) := rfl
      obtain ⟨ihb, ihs⟩ := ih (raw32 s).1 3 (rawStep raw32 s) (by omega)
      constructor
      · rw [hfl, List.range_succ_eq_map, List.map_cons, List.map_map]
        refine List.cons_eq_cons.mpr ⟨by norm_num, ?_⟩
        rw [ihb]
        apply List.map_congr_left
        intro k _
        show (if k ≤ 3 then ((raw32 s).1 >>> (8 * k)) % 256
            else (drawVal raw32 (rawStep raw32 s) ((k - 3 - 1) / 4)
              >>> (8 * ((k - 3 - 1) % 4))) % 256)
          = if k + 1 ≤ 0 then (x >>> (8 * (k + 1))) % 256
            else (drawVal raw32 s ((k + 1 - 0 - 1) / 4)
              >>> (8 * ((k + 1 - 0 - 1) % 4))) % 256
        rw [if_neg (show ¬(k + 1 ≤ 0) by omega)]
        by_cases hk : k ≤ 3
        · rw [if_pos hk]
          have hd : k + 1 - 0 - 1 = k := by omega
          have hdiv : k / 4 = 0 := Nat.div_eq_of_lt (by omega)
          have hmod : k % 4 = k := Nat.mod_eq_of_lt (by omega)
          rw [hd, hdiv, hmod]
          rfl
        · rw [if_neg hk, drawVal_rawStep]
          have h1 : k - 3 - 1 = k - 4 := by omega
          have h2 : (k - 4) / 4 + 1 = (k + 1 - 0 - 1) / 4 := by omega
          have h3 : (k - 4) % 4 = (k + 1 - 0 - 1) % 4 := by omega
          rw [h1, h2, h3]
      · rw [hfl, ihs, ← Function.iterate_succ_apply]
        congr 1
        by_cases hn : n ≤ 3
        · rw [if_pos hn, if_neg (show ¬(n + 1 ≤ 0) by omega)]
          have : (n + 1 - 0 - 1) / 4 = 0 := Nat.div_eq_of_lt (by omega)
          omega
        · rw [if_neg hn, if_neg (show ¬(n + 1 ≤ 0) by omega)]
          have : (n - 3 - 1) / 4 + 1 = (n + 1 - 0 - 1) / 4 := by omega
          omega
    · have hfl : fillLoop raw32 (n + 1) x c s
          = (x % 256 :: (fillLoop raw32 n (x >>> 8) (c - 1) s).1,
             (fillLoop raw32 n (x >>> 8) (c - 1) s).2) := by
        simp only [fillLoop, if_neg h0]
      obtain ⟨ihb, ihs⟩ := ih (x >>> 8) (c - 1) s (by omega)
      constructor
      · rw [hfl, List.range_succ_eq_map, List.map_cons, List.map_map]
        refine List.cons_eq_cons.mpr ⟨by rw [if_pos (Nat.zero_le c)]; norm_num, ?_⟩
        rw [ihb]
        apply List.map_congr_left
        intro k _
        show (if k ≤ c - 1 then ((x >>> 8) >>> (8 * k)) % 256
            else (drawVal raw32 s ((k - (c - 1) - 1) / 4)
              >>> (8 * ((k - (c - 1) - 1) % 4))) % 256)
          = if k + 1 ≤ c then (x >>> (8 * (k + 1))) % 256
            else (drawVal raw32 s ((k + 1 - c - 1) / 4)
              >>> (8 * ((k + 1 - c - 1) % 4))) % 256
        by_cases hk : k ≤ c - 1
        · rw [if_pos hk, if_pos (show k + 1 ≤ c by omega), ← Nat.shiftRight_add,
            show 8 + 8 * k = 8 * (k + 1) by ring]
        · rw [if_neg hk, if_neg (show ¬(k + 1 ≤ c) by omega),
            show k - (c - 1) - 1 = k + 1 - c - 1 by omega]
      · rw [hfl, ihs]
        congr 1
        by_cases hn : n ≤ c - 1
        · rw [if_pos hn, if_pos (show n + 1 ≤ c by omega)]
        · rw [if_neg hn, if_neg (show ¬(n + 1 ≤ c) by omega),
            show n - (c - 1) - 1 = n + 1 - c - 1 by omega]

/-- C7 (amended): `fill` on a buffer of length `n` writes byte `k` as byte
`k mod 4` (least-significant first) of the `k / 4`-th 32-bit draw, so an
8-byte buffer receives exactly the little-endian decomposition of the
first two draws; but it draws one word before the loop and redraws eagerly
after every fourth byte written, consuming `1 + n / 4` draws in total:
exactly the `⌈n / 4⌉` emitted words when `n` is not a multiple of 4, and
one extra, unused draw when `n` is a multiple of 4 (including `n = 0`). -/
theorem c7_fill_bytes_and_draws (σ : Type) (raw32 : σ → Nat × σ) (n : Nat) (s : σ) :
    (fill raw32 n s).1 = (List.range n).map (fun k =>
        (drawVal raw32 s (k / 4) >>> (8 * (k % 4))) % 256)
    ∧ (fill raw32 n s).2 = (rawStep raw32)^[1 + n / 4] s := by
  have hfl : fill raw32 n s = fillLoop raw32 n (raw32 s).1 3 (rawStep raw32 s) := rfl
  obtain ⟨hb, hs⟩ := fillLoop_spec raw32 n (raw32 s).1 3 (rawStep raw32 s) (by omega)
  constructor
  · rw [hfl, hb]
    apply List.map_congr_left
    intro k _
    by_cases hk : k ≤ 3
    · rw [if_pos hk]
      have hdiv : k / 4 = 0 := Nat.div_eq_of_lt (by omega)
      have hmod : k % 4 = k := Nat.mod_eq_of_lt (by omega)
      rw [hdiv, hmod]
      rfl
    · rw [if_neg hk, drawVal_rawStep]
      have h1 : k - 3 - 1 = k - 4 := by omega
      have h2 : (k - 4) / 4 + 1 = k / 4 := by omega
      have h3 : (k - 4) % 4 = k % 4 := by omega
      rw [h1, h2, h3]
  · rw [hfl, hs, ← Function.iterate_succ_apply]
    congr 1
    by_cases hn : n ≤ 3
    · rw [if_pos hn]
      have : n / 4 = 0 := Nat.div_eq_of_lt (by omega)
      omega
    · rw [if_neg hn]
      have : (n - 3 - 1) / 4 + 1 = n / 4 := by omega
      omega

/-- C7 counterexample: on the empty buffer — a (degenerate) tail shorter
than 4 bytes, with no words emitted at all — `fill` still consumes one
draw: the position-counting generator advances from 0 to 1.  Likewise a
4-byte buffer consumes two draws though only the first word's bytes are
emitted. -/
theorem c7_counterexample_fill_extra_draw :
    (fill (streamRaw32 zeroStream) 0 0).1 = []
    ∧ (fill (streamRaw32 zeroStream) 0 0).2 = 1
    ∧ (fill (streamRaw32 zeroStream) 4 0).2 = 2 := by
  exact ⟨rfl, rfl, by decide⟩

/-! ## C9: signed range sampling -/

theorem pow_sub_one_double {W : Nat} (hW : 0 < W) :
    (2 : Int) ^ W = 2 * 2 ^ (W - 1) := by
  conv_lhs => rw [show W = (W - 1) + 1 by omega]
  rw [pow_succ]
  ring

theorem wrapSigned_eq {W : Nat} (hW : 0 < W) {v : Int}
    (h1 : -2 ^ (W - 1) ≤ v) (h2 : v < 2 ^ (W - 1)) : wrapSigned W v = v := by
  have hQ := pow_sub_one_double hW
  unfold wrapSigned
  rw [Int.emod_eq_of_lt (by linarith) (by linarith)]
  ring

theorem wrapSigned_sub_pow (W : Nat) (v : Int) :
    wrapSigned W (v - 2 ^ W) = wrapSigned W v := by
  unfold wrapSigned
  congr 1
  rw [show v - 2 ^ W + 2 ^ (W - 1) = v + 2 ^ (W - 1) - 2 ^ W by ring,
    Int.sub_emod, Int.emod_self, sub_zero, Int.emod_emod_of_dvd _ dvd_rfl]

/-- When the width fits below `2 ^ (W - 1)`, the checked signed range
sampler performs no overflow: it returns `a` plus the bounded draw on the
exact width, and every returned value lies in `[a, b)`. -/
theorem randRangeSigned_spec {W : Nat} (hW : 2 ≤ W) {σ : Type} (raw : σ → Nat × σ)
    (fuel : Nat) {a b : Int} (s : σ) (hab : a < b) (halo : -2 ^ (W - 1) ≤ a)
    (hbhi : b < 2 ^ (W - 1)) (hwidth : b - a < 2 ^ (W - 1)) :
    (∀ (x : Nat) (s1 : σ), randBounded W raw (b - a).toNat fuel s = some (x, s1) →
      randRangeSigned W raw fuel a b s = some (a + (x : Int), s1))
    ∧ (∀ (v : Int) (s1 : σ), randRangeSigned W raw fuel a b s = some (v, s1) →
      a ≤ v ∧ v < b) := by
  have hQ : (2 : Int) ^ W = 2 * 2 ^ (W - 1) := pow_sub_one_double (by omega)
  have hPpos : (0 : Int) < 2 ^ (W - 1) := by positivity
  have hd0 : (0 : Int) < b - a := by linarith
  have hsub : checkedSub W b a = some (b - a) := by
    unfold checkedSub
    rw [if_pos ⟨by linarith, hwidth⟩]
  have hto : toUnsigned W (b - a) = (b - a).toNat := by
    unfold toUnsigned
    rw [Int.emod_eq_of_lt (by linarith) (by linarith)]
  have hmain : ∀ (x : Nat) (s1 : σ), randBounded W raw (b - a).toNat fuel s = some (x, s1) →
      randRangeSigned W raw fuel a b s = some (a + (x : Int), s1) := by
    intro x s1 hx
    have hxI : (x : Int) < b - a :=
      Int.lt_toNat.1 (randBounded_lt W raw _ fuel s x s1 hx)
    have hx0 : (0 : Int) ≤ (x : Int) := Int.natCast_nonneg _
    have hxP : (x : Int) < 2 ^ (W - 1) := by linarith
    have hxNat : x < 2 ^ (W - 1) := by exact_mod_cast hxP
    have hts : toSigned W x = (x : Int) := by
      unfold toSigned
      rw [if_pos hxNat]
    have hadd : checkedAdd W a (x : Int) = some (a + x) := by
      unfold checkedAdd
      rw [if_pos ⟨by linarith, by linarith⟩]
    unfold randRangeSigned
    rw [hsub]
    simp only [hto, hx, hts, hadd]
  refine ⟨hmain, ?_⟩
  intro v s1 hv
  cases hx : randBounded W raw (b - a).toNat fuel s with
  | none =>
    unfold randRangeSigned at hv
    rw [hsub] at hv
    simp [hto, hx] at hv
  | some p =>
    have heq := hmain p.1 p.2 (by rw [hx])
    rw [heq] at hv
    simp only [Option.some.injEq, Prod.mk.injEq] at hv
    have hxI : (p.1 : Int) < b - a :=
      Int.lt_toNat.1 (randBounded_lt W raw _ fuel s p.1 p.2 (by rw [hx]))
    have hx0 : (0 : Int) ≤ (p.1 : Int) := Int.natCast_nonneg _
    rw [← hv.1]
    constructor <;> linarith

/-- Under wrapping (release) overflow semantics the signed range sampler
lands in `[a, b)` for all valid `a < b`, even when the width exceeds
`2 ^ (W - 1)`. -/
theorem randRangeSignedWrapping_spec {W : Nat} (hW : 2 ≤ W) {σ : Type}
    (raw : σ → Nat × σ) (fuel : Nat) {a b : Int} (s : σ) (hab : a < b)
    (halo : -2 ^ (W - 1) ≤ a) (hbhi : b < 2 ^ (W - 1)) :
    ∀ (v : Int) (s1 : σ), randRangeSignedWrapping W raw fuel a b s = some (v, s1) →
      a ≤ v ∧ v < b := by
  have hQ : (2 : Int) ^ W = 2 * 2 ^ (W - 1) := pow_sub_one_double (by omega)
  have hPpos : (0 : Int) < 2 ^ (W - 1) := by positivity
  intro v s1 hv
  unfold randRangeSignedWrapping at hv
  have hto : toUnsigned W (b - a) = (b - a).toNat := by
    unfold toUnsigned
    rw [Int.emod_eq_of_lt (by linarith) (by linarith)]
  rw [hto] at hv
  cases hx : randBounded W raw (b - a).toNat fuel s with
  | none => simp [hx] at hv
  | some p =>
    simp only [hx, Option.some.injEq, Prod.mk.injEq] at hv
    have hxI : (p.1 : Int) < b - a :=
      Int.lt_toNat.1 (randBounded_lt W raw _ fuel s p.1 p.2 (by rw [hx]))
    have hx0 : (0 : Int) ≤ (p.1 : Int) := Int.natCast_nonneg _
    by_cases hcase : p.1 < 2 ^ (W - 1)
    · have hts : toSigned W p.1 = (p.1 : Int) := by
        unfold toSigned
        rw [if_pos hcase]
      have hw : wrapSigned W (a + (p.1 : Int)) = a + p.1 :=
        wrapSigned_eq (by omega) (by linarith) (by linarith)
      rw [← hv.1, hts, hw]
      constructor <;> linarith
    · have hts : toSigned W p.1 = (p.1 : Int) - 2 ^ W := by
        unfold toSigned
        rw [if_neg hcase]
      have hxPge : (2 : Int) ^ (W - 1) ≤ (p.1 : Int) := by
        have h1 : (2 ^ (W - 1) : Nat) ≤ p.1 := Nat.le_of_not_lt hcase
        exact_mod_cast h1
      have hw : wrapSigned W (a + (p.1 : Int) - 2 ^ W) = wrapSigned W (a + p.1) :=
        wrapSigned_sub_pow W _
      have hw2 : wrapSigned W (a + (p.1 : Int)) = a + p.1 :=
        wrapSigned_eq (by omega) (by linarith) (by linarith)
      rw [← hv.1, hts, show a + ((p.1 : Int) - 2 ^ W) = a + (p.1 : Int) - 2 ^ W by ring,
        hw, hw2]
      constructor <;> linarith

/-- C9 (amended): `rand_range_i32` / `rand_range_i64` compute the width
with plain (overflow-checked) subtraction `(b - a) as uW`, not a wrapping
subtraction.  For `a < b` with width `b - a < 2 ^ (W - 1)` nothing
overflows: the call returns `a` plus the bounded draw on the exact width
and every returned value lies in `[a, b)`.  For wider ranges — such as
`(iW::MIN, iW::MAX)` — the subtraction itself overflows (a debug-build
panic), and only under release wrapping semantics does the result again
lie in `[a, b)` for all `a < b`. -/
theorem c9_rand_range_signed (W : Nat) (hW : 2 ≤ W) (σ : Type) (raw : σ → Nat × σ)
    (fuel : Nat) (a b : Int) (s : σ) (hab : a < b) (halo : -2 ^ (W - 1) ≤ a)
    (hbhi : b < 2 ^ (W - 1)) :
    (b - a < 2 ^ (W - 1) →
      (∀ (x : Nat) (s1 : σ), randBounded W raw (b - a).toNat fuel s = some (x, s1) →
        randRangeSigned W raw fuel a b s = some (a + (x : Int), s1))
      ∧ (∀ (v : Int) (s1 : σ), randRangeSigned W raw fuel a b s = some (v, s1) →
        a ≤ v ∧ v < b))
    ∧ (2 ^ (W - 1) ≤ b - a → randRangeSigned W raw fuel a b s = none)
    ∧ (∀ (v : Int) (s1 : σ), randRangeSignedWrapping W raw fuel a b s = some (v, s1) →
        a ≤ v ∧ v < b) := by
  refine ⟨?_, ?_, randRangeSignedWrapping_spec hW raw fuel s hab halo hbhi⟩
  · intro hwidth
    exact randRangeSigned_spec hW raw fuel s hab halo hbhi hwidth
  · intro hwide
    unfold randRangeSigned
    have hsub : checkedSub W b a = none := by
      unfold checkedSub
      rw [if_neg (by push_neg; intro _; linarith)]
    rw [hsub]

/-- Witness for C9 at `W = 32`, `a = 0`, `b = 10` on a concrete stream. -/
theorem c9_rand_range_signed_witness :
    ((0 : Int) < 10)
    ∧ randBounded 32 (streamRaw32 zeroStream) ((10 : Int) - 0).toNat 1 0 = some (0, 1)
    ∧ randRangeSigned 32 (streamRaw32 zeroStream) 1 0 10 0
        = some (0 + ((0 : Nat) : Int), 1) :=
  ⟨by decide, by decide,
    ((c9_rand_range_signed 32 (by norm_num) Nat (streamRaw32 zeroStream) 1 0 10 0
        (by decide) (by decide) (by decide)).1 (by decide)).1 0 1 (by decide)⟩

/-- C9 counterexample: at the full ranges `(i32::MIN, i32::MAX)` and
`(i64::MIN, i64::MAX)` the claim fails on the code as written: the width
subtraction `b - a` overflows the signed type (the checked sampler fails
instead of drawing), because the source uses plain `-`, not
`wrapping_sub`. -/
theorem c9_counterexample_range_width_overflows :
    randRangeI32 (streamRaw32 zeroStream) 1 (-2 ^ 31) (2 ^ 31 - 1) 0 = none
    ∧ randRangeI64 (streamRaw64 zeroStream) 1 (-2 ^ 63) (2 ^ 63 - 1) 0 = none := by
  constructor <;> decide
